import Mathlib

/-!
Verification of the MediRAG hybrid retrieval engine.

Shallow embedding of the retrieval core of the repository:
`src/retrieval/fusion.py` (weighted reciprocal-rank fusion),
`src/retrieval/sparse.py` (BM25 sparse search), `src/retrieval/dense.py`
(dense FAISS search), `src/evaluation/retrieval_metrics.py` (ranking
metrics) and `src/preprocessing/chunking.py` (token chunking).

Machine floats of the source are modelled over `ℚ` (the fusion scores are
exact small rationals); the transcendental `np.log2` in NDCG is modelled
over `ℝ` in a separate value layer on top of a computable rank layer.
-/

namespace MediRAG

/-! ### fusion.py — weighted RRF fusion (`hybrid_search`, lines 125‑145)

The fusion stage of `hybrid_search` accumulates scores in the Python dict
`fusion_scores`, keyed by faiss index.  Python dicts iterate in insertion
order and Python's `sorted` is stable, so the dict is modelled as an
association list that preserves insertion order. -/

abbrev ScoreMap := List (ℕ × ℚ)

/-- The dict update `fusion_scores[faiss_idx] = fusion_scores.get(faiss_idx, 0) + score`:
update the entry in place when the key is present, else append a fresh
entry at the end (where Python dicts put new keys). -/
def addScore : ScoreMap → ℕ → ℚ → ScoreMap
  | [], i, s => [(i, s)]
  | (j, t) :: rest, i, s =>
      if j = i then (j, t + s) :: rest else (j, t) :: addScore rest i s

/-- Dense contribution loop:
`for rank, faiss_idx in enumerate(dense_indices[0], 1):
   fusion_scores[faiss_idx] += WD * (1 / (RRF_K + rank))`. -/
def densePass (wd : ℚ) (k : ℕ) : ScoreMap → ℕ → List ℕ → ScoreMap
  | m, _, [] => m
  | m, rank, d :: ds =>
      densePass wd k (addScore m d (wd * (1 / ((k : ℚ) + rank)))) (rank + 1) ds

/-- Sparse contribution loop: each sparse candidate is resolved through
`chunks[sparse_idx]["chunk_id"]` and `chunkid_to_faiss`; the two lookups
are modelled together by `resolve`.  An unresolvable candidate is skipped
(`if sparse_chunk_id in chunkid_to_faiss:`) but its rank is still
consumed, because `rank` enumerates all of `sparse_indices`. -/
def sparsePass (ws : ℚ) (k : ℕ) (resolve : ℕ → Option ℕ) :
    ScoreMap → ℕ → List ℕ → ScoreMap
  | m, _, [] => m
  | m, rank, s :: ss =>
      match resolve s with
      | some fi =>
          sparsePass ws k resolve
            (addScore m fi (ws * (1 / ((k : ℚ) + rank)))) (rank + 1) ss
      | none => sparsePass ws k resolve m (rank + 1) ss

/-- The comparison used by
`sorted(fusion_scores.items(), key=lambda x: x[1], reverse=True)`:
descending by score.  Ties are left to the stability of the sort. -/
def scoreDesc (a b : ℕ × ℚ) : Prop := b.2 ≤ a.2

instance : DecidableRel scoreDesc := fun a b =>
  inferInstanceAs (Decidable (b.2 ≤ a.2))

instance : IsTotal (ℕ × ℚ) scoreDesc := ⟨fun a b => le_total b.2 a.2⟩

instance : IsTrans (ℕ × ℚ) scoreDesc :=
  ⟨fun _ _ _ h1 h2 => le_trans h2 h1⟩

/-- Python's `sorted(..., reverse=True)` is a stable sort; so is
`List.insertionSort`, hence both produce the same list for the
total preorder `scoreDesc`. -/
def pySorted (m : ScoreMap) : ScoreMap := m.insertionSort scoreDesc

/-- Constants of fusion.py: `WD = 0.6`, `WS = 0.4`, `RRF_K = 60`,
`TOP_K = 5`. -/
def WD : ℚ := 3 / 5

def WS : ℚ := 2 / 5

def RRF_K : ℕ := 60

def TOP_K : ℕ := 5

/-- Fusion stage of `hybrid_search` (fusion.py lines 125‑145),
parameterised by the two retrievers' candidate lists, the weights and the
resolution map: accumulate both passes, sort descending by score
(stable), truncate to `top_k`. -/
def hybrid_search_fuse (wd ws : ℚ) (k topK : ℕ) (dense sparse : List ℕ)
    (resolve : ℕ → Option ℕ) : ScoreMap :=
  (pySorted (sparsePass ws k resolve (densePass wd k [] 1 dense) 1 sparse)).take topK

/-! #### C4 — resolution failure.  The source (fusion.py lines 133‑141)
guards the sparse contribution with `if sparse_chunk_id in
chunkid_to_faiss:` — an unresolvable candidate is skipped and the loop
continues; no exception is raised anywhere in the fusion stage. -/

/-- A concrete resolution map under which passage 5 is unresolvable. -/
def resolveNot5 : ℕ → Option ℕ := fun n => if n = 5 then none else some n

/-- A concrete resolution map under which all ids ≥ 5 are unresolvable. -/
def resolveLt5 : ℕ → Option ℕ := fun n => if 5 ≤ n then none else some n

/-! ### sparse.py — BM25 sparse retrieval (`tokenize`, `sparse_search`) -/

/-- A corpus chunk as stored in `merck_chunks_800_150.json` (the fields
read by sparse.py). -/
structure Chunk where
  chunk_id : String
  chapter_number : ℕ
  chapter_title : String
  content : String
deriving DecidableEq, Inhabited

/-- One entry of the `results` list built by `sparse_search`. -/
structure SparseResult where
  rank : ℕ
  chunk_id : String
  chapter_number : ℕ
  chapter_title : String
  content : String
  score : ℚ
deriving DecidableEq

/-- Python's `str.split()`: split on runs of whitespace, dropping empty
tokens.  `acc` holds the characters of the current token, reversed. -/
def splitTokensAux : List Char → List Char → List String
  | [], acc => if acc = [] then [] else [String.mk acc.reverse]
  | c :: cs, acc =>
      if c = ' ' then
        (if acc = [] then [] else [String.mk acc.reverse]) ++ splitTokensAux cs []
      else splitTokensAux cs (c :: acc)

def splitTokens (s : List Char) : List String := splitTokensAux s []

/-- sparse.py `tokenize` (lines 38‑43): lowercase, replace every
character outside `[a-z0-9\s]` by a space, split on whitespace, drop
stopwords.  ASCII lowercasing is written out explicitly; whitespace
characters other than a space are also mapped to a space, which leaves
`split()`'s output unchanged. -/
def tokenize (stop : List String) (text : String) : List String :=
  let cleaned := text.data.map fun c =>
    let lc := if 'A' ≤ c ∧ c ≤ 'Z' then Char.ofNat (c.toNat + 32) else c
    if ('a' ≤ lc ∧ lc ≤ 'z') ∨ ('0' ≤ lc ∧ lc ≤ '9') then lc else ' '
  (splitTokens cleaned).filter (· ∉ stop)

/-- The library call `BM25Okapi.get_scores(query)` returns, for each of the `nDocs`
documents, the sum over the query's tokens of that token's BM25
contribution to the document.  The per-token kernel (idf, tf saturation,
length normalisation) is external library numerics, abstracted as
`termScore`; only the summation shape is needed here. -/
def bm25_get_scores (termScore : String → ℕ → ℚ) (nDocs : ℕ)
    (query : List String) : List ℚ :=
  (List.range nDocs).map fun d => (query.map fun t => termScore t d).sum

/-- The ascending comparison underlying `np.argsort(scores)`: by score,
with equal scores in ascending index order.  (numpy's default sort
leaves the order of equal keys unspecified; the stable order is used
here.) -/
def idxLe (scores : List ℚ) (i j : ℕ) : Prop :=
  scores.getD i 0 < scores.getD j 0 ∨ (scores.getD i 0 = scores.getD j 0 ∧ i ≤ j)

instance (scores : List ℚ) : DecidableRel (idxLe scores) := fun i j =>
  inferInstanceAs (Decidable (_ ∨ _))

instance (scores : List ℚ) : IsTotal ℕ (idxLe scores) :=
  ⟨fun i j => by
    rcases lt_trichotomy (scores.getD i 0) (scores.getD j 0) with h | h | h
    · exact Or.inl (Or.inl h)
    · rcases Nat.le_total i j with hij | hij
      · exact Or.inl (Or.inr ⟨h, hij⟩)
      · exact Or.inr (Or.inr ⟨h.symm, hij⟩)
    · exact Or.inr (Or.inl h)⟩

instance (scores : List ℚ) : IsTrans ℕ (idxLe scores) :=
  ⟨fun a b c hab hbc => by
    rcases hab with h1 | ⟨h1, h1'⟩ <;> rcases hbc with h2 | ⟨h2, h2'⟩
    · exact Or.inl (h1.trans h2)
    · exact Or.inl (h2 ▸ h1)
    · exact Or.inl (h1 ▸ h2)
    · exact Or.inr ⟨h1.trans h2, h1'.trans h2'⟩⟩

/-- The call `np.argsort(scores)`: the indices `0..len-1` sorted ascending. -/
def argsortAsc (scores : List ℚ) : List ℕ :=
  (List.range scores.length).insertionSort (idxLe scores)

/-- sparse.py `sparse_search` (lines 63‑87) in `return_results` mode:
tokenize the query, score the corpus, take the `top_k` indices of
`np.argsort(scores)[::-1]`, and build the result records. -/
def sparse_search (termScore : String → ℕ → ℚ) (chunksL : List Chunk)
    (stop : List String) (query : String) (topK : ℕ) : List SparseResult :=
  let tq := tokenize stop query
  let scores := bm25_get_scores termScore chunksL.length tq
  let topIndices := ((argsortAsc scores).reverse).take topK
  topIndices.enum.map fun p =>
    let chunk := chunksL.getD p.2 default
    ⟨p.1 + 1, chunk.chunk_id, chunk.chapter_number, chunk.chapter_title,
      chunk.content, scores.getD p.2 0⟩

/-- A tiny stopword set (a subset of the NLTK English stopwords loaded
by sparse.py). -/
def stopEx : List String := ["the", "of", "and"]

/-- A tiny two-chunk corpus. -/
def chunksEx : List Chunk :=
  [⟨"1_0", 1, "c", "alpha"⟩, ⟨"1_1", 1, "c", "beta"⟩]

/-! #### C3 — output ordering.
`sorted(fusion_scores.items(), key=lambda x: x[1], reverse=True)` orders
by descending score only; ties keep dict insertion order (Python's sort
is stable), not ascending passage_id.  Likewise
`np.argsort(scores)[::-1]` has no passage_id tie-break. -/

/-- Modelled from the spec: "sort by descending total score; break ties
by ascending passage_id; truncate to top_k" — the same fusion pipeline
as `hybrid_search_fuse` except that the sort key includes the explicit
ascending-passage_id tie-break. -/
def specFuseRel (a b : ℕ × ℚ) : Prop :=
  b.2 < a.2 ∨ (a.2 = b.2 ∧ a.1 ≤ b.1)

instance : DecidableRel specFuseRel := fun a b =>
  inferInstanceAs (Decidable (_ ∨ _))

def spec_fuse_order (wd ws : ℚ) (k topK : ℕ) (dense sparse : List ℕ)
    (resolve : ℕ → Option ℕ) : ScoreMap :=
  ((sparsePass ws k resolve (densePass wd k [] 1 dense) 1 sparse).insertionSort
    specFuseRel).take topK

/-- Dense candidates realising an exact score tie:
id 7 at dense rank 6, id 3 at dense rank 10. -/
def denseTie : List ℕ := [10, 11, 12, 13, 14, 7, 15, 16, 17, 3]

/-- Sparse candidates: id 3 at sparse rank 10, id 7 at sparse rank 17,
so that score(7) = 0.6/66 + 0.4/77 = 1/70 = 0.6/70 + 0.4/70 = score(3). -/
def sparseTie : List ℕ :=
  [20, 21, 22, 23, 24, 25, 26, 27, 28, 3, 29, 30, 31, 32, 33, 34, 7]

/-! ### evaluation/retrieval_metrics.py — ranking metrics.
`recall_at_k`, `mrr_score` and `ndcg_at_k` read only the
`chapter_number` field of each result, so a ranked list is modelled as
the list of its chapter numbers (the "group ids" of the spec). -/

/-- Source `recall_at_k` (lines 119‑121): membership of the expected chapter in
the set of the first `k` chapters. -/
def recall_at_k (results : List ℕ) (relevant k : ℕ) : ℕ :=
  if relevant ∈ results.take k then 1 else 0

/-- The loop of `mrr_score` (lines 124‑133): `rank` enumerates the whole
list (duplicates included); an already-seen chapter is skipped via
`continue`, otherwise it is added to `seen` and compared. -/
def mrr_aux (relevant : ℕ) : ℕ → List ℕ → List ℕ → ℚ
  | _, _, [] => 0
  | rank, seen, c :: rest =>
      if c ∈ seen then mrr_aux relevant (rank + 1) seen rest
      else if c = relevant then 1 / (rank : ℚ)
      else mrr_aux relevant (rank + 1) (c :: seen) rest

def mrr_score (results : List ℕ) (relevant : ℕ) : ℚ :=
  mrr_aux relevant 1 [] results

/-- The loop of `ndcg_at_k` (lines 136‑148), rank layer: `pos` counts
distinct chapters only, and the function returns the (deduplicated)
position at which the relevant chapter is first found within the first
`k` results, if any. -/
def ndcg_aux (relevant : ℕ) : ℕ → List ℕ → List ℕ → Option ℕ
  | _, _, [] => none
  | pos, seen, c :: rest =>
      if c ∈ seen then ndcg_aux relevant pos seen rest
      else if c = relevant then some (pos + 1)
      else ndcg_aux relevant (pos + 1) (c :: seen) rest

def ndcg_hit (results : List ℕ) (relevant k : ℕ) : Option ℕ :=
  ndcg_aux relevant 0 [] (results.take k)

/-- Value layer of `ndcg_at_k`: `1.0 / np.log2(pos + 1)` at the hit
position, else 0.  (`np.log2` is transcendental, hence the `ℝ`-valued
layer on top of the computable `ndcg_hit`.) -/
noncomputable def ndcg_at_k (results : List ℕ) (relevant k : ℕ) : ℝ :=
  match ndcg_hit results relevant k with
  | none => 0
  | some p => 1 / Real.logb 2 ((p : ℝ) + 1)

/-- Deduplication keeping first occurrences (what "deduplicates repeated
group ids within a ranked list before computing the rank" denotes). -/
def dedupFirst (seen : List ℕ) : List ℕ → List ℕ
  | [] => []
  | c :: rest =>
      if c ∈ seen then dedupFirst seen rest
      else c :: dedupFirst (c :: seen) rest

/-- Modelled from the spec: MRR computed after deduplicating the ranked
list, so that "a group is never counted twice for rank purposes" — the
rank of the first match counts distinct groups only. -/
def mrr_dedup (results : List ℕ) (relevant : ℕ) : ℚ :=
  mrr_aux relevant 1 [] (dedupFirst [] results)

/-! ### preprocessing/chunking.py — `chunk_tokens` (lines 35‑50). -/

/-- The while loop of `chunk_tokens`: `tokens[start:end]` with
`end = min(start + chunk_size, total)` is `(tokens.drop start).take
size`; a chunk shorter than 50 tokens breaks the loop; otherwise
`start += chunk_size - overlap`.  `fuel` bounds the number of
iterations; since `start` grows by `size - overlap > 0` per kept chunk,
`tokens.length + 1` iterations are never exhausted for the constants
used (size 800, overlap 150). -/
def chunk_tokens_aux (tokens : List ℕ) (size overlap : ℕ) :
    ℕ → ℕ → List (List ℕ)
  | 0, _ => []
  | fuel + 1, start =>
      if start < tokens.length then
        let chunk := (tokens.drop start).take size
        if chunk.length < 50 then []
        else chunk :: chunk_tokens_aux tokens size overlap fuel
          (start + (size - overlap))
      else []

def chunk_tokens (tokens : List ℕ) (size overlap : ℕ) : List (List ℕ) :=
  chunk_tokens_aux tokens size overlap (tokens.length + 1) 0

/-! ### dense.py — `dense_search` (lines 101‑125).
`encode_query` (transformer inference) is external; `neighbors`
abstracts the index's ranked answer `(faiss_idx, score)` for the encoded
query, one entry per stored vector, best first.  FAISS's `index.search`
returns exactly `top_k` labels, padding with label -1 (and a sentinel
distance) whenever the index holds fewer than `top_k` vectors — in
particular an empty index yields all labels -1. -/

/-- The call `index.search(query_vec, top_k)`: the ranked labels/scores truncated
or padded to exactly `top_k` entries. -/
def faiss_search (neighbors : List (ℤ × ℚ)) (topK : ℕ) : List (ℤ × ℚ) :=
  neighbors.take topK ++ List.replicate (topK - neighbors.length) (-1, 0)

/-- Python list indexing `l[i]`: negative indices address from the end;
out of range raises IndexError (`none`). -/
def pyGet (l : List String) (i : ℤ) : Option String :=
  if 0 ≤ i then l.get? i.toNat
  else if (0 : ℤ) ≤ i + l.length then l.get? (i + l.length).toNat else none

/-- One entry of the `results` list built by `dense_search`. -/
structure DenseResult where
  rank : ℕ
  chunk_id : String
  chapter_number : ℕ
  chapter_title : String
  content : String
  score : ℚ
deriving DecidableEq

/-- The result loop of `dense_search`:
`for rank, (faiss_idx, score) in enumerate(zip(indices[0], scores[0]), 1)`
with `chunk_id = id_map[faiss_idx]` and `chunk = chunk_lookup[chunk_id]`;
a failing list index or dict lookup raises (IndexError / KeyError),
modelled as `Except.error`. -/
def dense_search_loop (id_map : List String) (chunk_lookup : String → Option Chunk) :
    ℕ → List (ℤ × ℚ) → Except String (List DenseResult)
  | _, [] => Except.ok []
  | rank, (fi, sc) :: rest =>
      match pyGet id_map fi with
      | none => Except.error "IndexError"
      | some cid =>
          match chunk_lookup cid with
          | none => Except.error "KeyError"
          | some chunk =>
              match dense_search_loop id_map chunk_lookup (rank + 1) rest with
              | Except.error e => Except.error e
              | Except.ok rs =>
                  Except.ok (⟨rank, cid, chunk.chapter_number,
                    chunk.chapter_title, chunk.content, sc⟩ :: rs)

def dense_search (id_map : List String) (chunk_lookup : String → Option Chunk)
    (neighbors : List (ℤ × ℚ)) (topK : ℕ) : Except String (List DenseResult) :=
  dense_search_loop id_map chunk_lookup 1 (faiss_search neighbors topK)

/-! #### C2 — the `alpha = 1` / `alpha = 0` extremes.
With weights `(wd, ws) = (1, 0)` (resp. `(0, 1)`) the fusion accumulator
is the dense (resp. resolved sparse) ranking with strictly decreasing
positive scores, plus zero-score entries from the other list; the
stable descending sort therefore reproduces the contributing list's
order on the positive prefix. -/

/-- The entries the dense pass appends for a duplicate-free dense list,
in order: `(d, wd / (k + rank))`. -/
def denseEntries (wd : ℚ) (k : ℕ) : ℕ → List ℕ → ScoreMap
  | _, [] => []
  | rank, d :: ds =>
      (d, wd * (1 / ((k : ℚ) + rank))) :: denseEntries wd k (rank + 1) ds

/-- The entries the sparse pass contributes for resolvable candidates,
in order: `(resolve s, ws / (k + rank))`; unresolvable candidates are
skipped but still consume their rank. -/
def sparseEntries (ws : ℚ) (k : ℕ) (resolve : ℕ → Option ℕ) :
    ℕ → List ℕ → ScoreMap
  | _, [] => []
  | rank, s :: ss =>
      match resolve s with
      | some fi =>
          (fi, ws * (1 / ((k : ℚ) + rank))) :: sparseEntries ws k resolve (rank + 1) ss
      | none => sparseEntries ws k resolve (rank + 1) ss

/-! ## Theorems -/


/-! #### Key-provenance lemmas: every key of the accumulator comes from
the dense list or from a resolved sparse candidate. -/

lemma addScore_keys (m : ScoreMap) (i : ℕ) (s : ℚ) :
    ∀ x ∈ (addScore m i s).map Prod.fst, x ∈ m.map Prod.fst ∨ x = i := by
  induction m with
  | nil => intro x hx; simp only [addScore, List.map_cons, List.map_nil,
      List.mem_cons, List.not_mem_nil, or_false] at hx; exact Or.inr hx
  | cons p rest ih =>
      obtain ⟨j, t⟩ := p
      intro x hx
      by_cases h : j = i
      · simp only [addScore, if_pos h, List.map_cons, List.mem_cons] at hx
        rcases hx with h1 | h2
        · exact Or.inl (by simp [h1])
        · exact Or.inl (by simp [h2])
      · simp only [addScore, if_neg h, List.map_cons, List.mem_cons] at hx ⊢
        rcases hx with h1 | h2
        · exact Or.inl (Or.inl h1)
        · rcases ih x h2 with h3 | h4
          · exact Or.inl (Or.inr h3)
          · exact Or.inr h4

lemma densePass_keys (wd : ℚ) (k : ℕ) :
    ∀ (ds : List ℕ) (m : ScoreMap) (rank : ℕ),
      ∀ x ∈ (densePass wd k m rank ds).map Prod.fst,
        x ∈ m.map Prod.fst ∨ x ∈ ds := by
  intro ds
  induction ds with
  | nil => intro m rank x hx; exact Or.inl hx
  | cons d ds ih =>
      intro m rank x hx
      rcases ih _ _ x hx with h1 | h2
      · rcases addScore_keys m d _ x h1 with h3 | h4
        · exact Or.inl h3
        · exact Or.inr (by simp [h4])
      · exact Or.inr (List.mem_cons_of_mem _ h2)

lemma sparsePass_keys (ws : ℚ) (k : ℕ) (resolve : ℕ → Option ℕ) :
    ∀ (ss : List ℕ) (m : ScoreMap) (rank : ℕ),
      ∀ x ∈ (sparsePass ws k resolve m rank ss).map Prod.fst,
        x ∈ m.map Prod.fst ∨ x ∈ ss.filterMap resolve := by
  intro ss
  induction ss with
  | nil => intro m rank x hx; exact Or.inl hx
  | cons s ss ih =>
      intro m rank x hx
      simp only [sparsePass] at hx
      rcases hr : resolve s with _ | fi
      · rw [hr] at hx
        rcases ih _ _ x hx with h1 | h2
        · exact Or.inl h1
        · exact Or.inr (by simp [List.filterMap_cons, hr, h2])
      · rw [hr] at hx
        rcases ih _ _ x hx with h1 | h2
        · rcases addScore_keys m fi _ x h1 with h3 | h4
          · exact Or.inl h3
          · exact Or.inr (by simp [List.filterMap_cons, hr, h4])
        · exact Or.inr (by simp [List.filterMap_cons, hr, h2])

/-- C6: For all valid inputs, the set of passage_ids in the fused result
is a subset of the union of the ids in the dense candidate list and the
(resolved) ids of the sparse candidate list. -/
theorem fused_ids_subset (wd ws : ℚ) (k topK : ℕ) (dense sparse : List ℕ)
    (resolve : ℕ → Option ℕ) :
    ∀ x ∈ (hybrid_search_fuse wd ws k topK dense sparse resolve).map Prod.fst,
      x ∈ dense ∨ x ∈ sparse.filterMap resolve := by
  intro x hx
  rw [hybrid_search_fuse, List.map_take] at hx
  have hx2 := List.take_subset _ _ hx
  rw [pySorted, (List.perm_insertionSort scoreDesc _).map Prod.fst |>.mem_iff] at hx2
  rcases sparsePass_keys ws k resolve sparse _ 1 x hx2 with h1 | h2
  · rcases densePass_keys wd k dense [] 1 x h1 with h3 | h4
    · simp at h3
    · exact Or.inl h4
  · exact Or.inr h2

/-- Closed witness for `fused_ids_subset` (the quantified membership
hypothesis is discharged at a concrete input). -/
theorem fused_ids_subset_witness :
    (7 : ℕ) ∈ [7, 3] ∨ (7 : ℕ) ∈ [5, 7].filterMap some :=
  fused_ids_subset WD WS RRF_K TOP_K [7, 3] [5, 7] some 7 (by
    norm_num [hybrid_search_fuse, densePass, sparsePass, addScore, pySorted,
      List.insertionSort, List.orderedInsert, scoreDesc, WD, WS, RRF_K, TOP_K])

/-- C1: For the fusion of the dense ranking `[A:1, B:2, C:3]` with the
sparse ranking `[B:1, A:2, D:3]` under the code's constants `WD = 0.6`,
`WS = 0.4`, `RRF_K = 60` (passages `A,B,C,D` are the faiss indices
`0,1,2,3`), the accumulated fusion scores are
`score(A) = 0.6/61 + 0.4/62`, `score(B) = 0.6/62 + 0.4/61`,
`score(C) = 0.6/63`, `score(D) = 0.4/63`, and the fused output order is
`[A, B, C, D]`. -/
theorem fusion_worked_example :
    hybrid_search_fuse WD WS RRF_K TOP_K [0, 1, 2] [1, 0, 3] some
      = [(0, 3/5 * (1/61) + 2/5 * (1/62)), (1, 3/5 * (1/62) + 2/5 * (1/61)),
         (2, 3/5 * (1/63)), (3, 2/5 * (1/63))] ∧
    (hybrid_search_fuse WD WS RRF_K TOP_K [0, 1, 2] [1, 0, 3] some).map Prod.fst
      = [0, 1, 2, 3] := by
  constructor <;>
    norm_num [hybrid_search_fuse, densePass, sparsePass, addScore, pySorted,
      List.insertionSort, List.orderedInsert, scoreDesc, WD, WS, RRF_K, TOP_K]

/-- C7: When both the dense candidate list and the sparse candidate list
are empty, fusion returns the empty sequence — a valid empty result, not
a failure (and this holds for every weights, constants and resolution
map, in particular for the code's `WD, WS, RRF_K, TOP_K`). -/
theorem fuse_empty_empty (wd ws : ℚ) (k topK : ℕ) (resolve : ℕ → Option ℕ) :
    hybrid_search_fuse wd ws k topK [] [] resolve = [] := by
  simp [hybrid_search_fuse, densePass, sparsePass, pySorted, List.insertionSort]

/-- C4 counterexample: with dense `[0]` and sparse `[5, 1]` where 5 is
unresolvable, fusion returns a normal ranked list: the unresolvable
candidate is silently dropped and the following candidate 1 still
contributes (at its original rank 2).  No fatal error occurs, refuting
"it never silently skips that candidate and continues". -/
theorem fusion_soft_skip_cex :
    hybrid_search_fuse WD WS RRF_K TOP_K [0] [5, 1] resolveNot5
      = [(0, 3/5 * (1/61)), (1, 2/5 * (1/62))] ∧
    (5 : ℕ) ∉ (hybrid_search_fuse WD WS RRF_K TOP_K [0] [5, 1] resolveNot5).map Prod.fst ∧
    (1 : ℕ) ∈ (hybrid_search_fuse WD WS RRF_K TOP_K [0] [5, 1] resolveNot5).map Prod.fst := by
  refine ⟨?_, ?_, ?_⟩ <;>
    norm_num [hybrid_search_fuse, densePass, sparsePass, addScore, pySorted,
      List.insertionSort, List.orderedInsert, scoreDesc, resolveNot5,
      WD, WS, RRF_K, TOP_K]

lemma sparsePass_skip (ws : ℚ) (k : ℕ) (resolve : ℕ → Option ℕ)
    (post : List ℕ) (s t : ℕ) (hs : resolve s = none) (ht : resolve t = none) :
    ∀ (pre : List ℕ) (m : ScoreMap) (rank : ℕ),
      sparsePass ws k resolve m rank (pre ++ s :: post)
        = sparsePass ws k resolve m rank (pre ++ t :: post) := by
  intro pre
  induction pre with
  | nil => intro m rank; simp only [List.nil_append, sparsePass, hs, ht]
  | cons p pre ih =>
      intro m rank
      simp only [List.cons_append, sparsePass]
      cases hr : resolve p <;> simp only [hr] <;> exact ih _ _

/-- C4 amended: an unresolvable sparse candidate is silently skipped
(though it still consumes its rank position) and fusion continues; the
identity of the unresolvable candidate is irrelevant to the output. -/
theorem fusion_skip_irrelevance (wd ws : ℚ) (k topK : ℕ) (dense : List ℕ)
    (resolve : ℕ → Option ℕ) (pre post : List ℕ) (s t : ℕ)
    (hs : resolve s = none) (ht : resolve t = none) :
    hybrid_search_fuse wd ws k topK dense (pre ++ s :: post) resolve
      = hybrid_search_fuse wd ws k topK dense (pre ++ t :: post) resolve := by
  rw [hybrid_search_fuse, hybrid_search_fuse,
    sparsePass_skip ws k resolve post s t hs ht pre]

/-- Closed witness for `fusion_skip_irrelevance`: replacing the
unresolvable candidate 5 by the unresolvable candidate 6 leaves the
fused output unchanged. -/
theorem fusion_skip_irrelevance_witness :
    hybrid_search_fuse WD WS RRF_K TOP_K [0] ([] ++ 5 :: [1]) resolveLt5
      = hybrid_search_fuse WD WS RRF_K TOP_K [0] ([] ++ 6 :: [1]) resolveLt5 :=
  fusion_skip_irrelevance WD WS RRF_K TOP_K [0] resolveLt5 [] [1] 5 6
    (by decide) (by decide)

/-! #### C5 — empty tokenized query.
`bm25.get_scores([])` is an all-zero vector, so `sparse_search` still
returns `min(top_k, corpus size)` results (all with score 0.0), not an
empty sequence. -/

lemma getD_replicate_zero : ∀ (n i : ℕ),
    (List.replicate n (0 : ℚ)).getD i 0 = 0 := by
  intro n
  induction n with
  | zero => intro i; simp
  | succ n ih =>
      intro i
      cases i with
      | zero => simp [List.replicate]
      | succ i => simpa [List.replicate] using ih i

/-- C5 amended: a query whose tokenization yields zero non-stopword
tokens gives an all-zero score vector, and `sparse_search` returns
`min(top_k, corpus size)` results, each with score 0 — not an empty
sequence (unless the corpus is empty or `top_k = 0`). -/
theorem sparse_search_empty_query (termScore : String → ℕ → ℚ)
    (chunksL : List Chunk) (stop : List String) (query : String) (topK : ℕ)
    (h : tokenize stop query = []) :
    (sparse_search termScore chunksL stop query topK).length
        = min topK chunksL.length ∧
    ∀ r ∈ sparse_search termScore chunksL stop query topK, r.score = 0 := by
  have hscore : bm25_get_scores termScore chunksL.length (tokenize stop query)
      = List.replicate chunksL.length (0 : ℚ) := by
    simp [bm25_get_scores, h, List.map_const']
  have hlen : (argsortAsc (List.replicate chunksL.length (0 : ℚ))).length
      = chunksL.length := by
    rw [argsortAsc, (List.perm_insertionSort _ _).length_eq]
    simp
  constructor
  · simp [sparse_search, hscore, hlen]
  · intro r hr
    simp only [sparse_search, hscore] at hr
    rw [List.mem_map] at hr
    obtain ⟨p, _, rfl⟩ := hr
    exact getD_replicate_zero _ _

/-- C5 counterexample: the query "The of AND!" tokenizes to zero
non-stopword tokens, yet `sparse_search` over a two-chunk corpus with
`top_k = 2` returns two results (each with score 0), not the empty
sequence the claim requires. -/
theorem sparse_search_empty_query_cex :
    tokenize stopEx "The of AND!" = [] ∧
    sparse_search (fun _ _ => 0) chunksEx stopEx "The of AND!" 2 ≠ [] ∧
    (sparse_search (fun _ _ => 0) chunksEx stopEx "The of AND!" 2).length = 2 := by
  refine ⟨by decide, by decide, by decide⟩

/-- Closed witness for `sparse_search_empty_query`. -/
theorem sparse_search_empty_query_witness :
    (sparse_search (fun _ _ => 0) chunksEx stopEx "The of AND!" 3).length
      = min 3 chunksEx.length :=
  (sparse_search_empty_query (fun _ _ => 0) chunksEx stopEx "The of AND!" 3
    (by decide)).1

set_option maxHeartbeats 1000000 in
/-- C3 counterexample: ids 7 and 3 tie exactly at fusion score 1/70 and
both land in the top-5, but the code emits 7 before 3 (dict insertion
order), while the claimed ascending-passage_id tie-break demands 3
before 7. -/
theorem fusion_tie_break_cex :
    (hybrid_search_fuse WD WS RRF_K TOP_K denseTie sparseTie some).map Prod.fst
      = [7, 3, 10, 11, 12] ∧
    (spec_fuse_order WD WS RRF_K TOP_K denseTie sparseTie some).map Prod.fst
      = [3, 7, 10, 11, 12] ∧
    (hybrid_search_fuse WD WS RRF_K TOP_K denseTie sparseTie some).map Prod.fst
      ≠ (spec_fuse_order WD WS RRF_K TOP_K denseTie sparseTie some).map Prod.fst := by
  have h1 : (hybrid_search_fuse WD WS RRF_K TOP_K denseTie sparseTie some).map Prod.fst
      = [7, 3, 10, 11, 12] := by
    norm_num [hybrid_search_fuse, densePass, sparsePass, addScore, pySorted,
      List.insertionSort, List.orderedInsert, scoreDesc, denseTie, sparseTie,
      WD, WS, RRF_K, TOP_K]
  have h2 : (spec_fuse_order WD WS RRF_K TOP_K denseTie sparseTie some).map Prod.fst
      = [3, 7, 10, 11, 12] := by
    norm_num [spec_fuse_order, densePass, sparsePass, addScore,
      List.insertionSort, List.orderedInsert, specFuseRel, denseTie, sparseTie,
      WD, WS, RRF_K, TOP_K]
  exact ⟨h1, h2, by rw [h1, h2]; decide⟩

/-- C3 amended: the fused output is sorted by descending total fusion
score (ties in dict insertion order, per the counterexample) and is
truncated to `top_k`; `sparse_search` returns at most `top_k` results in
descending score order (tie order from the reversed argsort, again not
ascending passage_id). -/
theorem fused_output_sorted (wd ws : ℚ) (k topK : ℕ) (dense sparse : List ℕ)
    (resolve : ℕ → Option ℕ) (termScore : String → ℕ → ℚ) (chunksL : List Chunk)
    (stop : List String) (query : String) (topK' : ℕ) :
    List.Sorted scoreDesc (hybrid_search_fuse wd ws k topK dense sparse resolve) ∧
    (hybrid_search_fuse wd ws k topK dense sparse resolve).length ≤ topK ∧
    List.Sorted (fun a b : ℚ => b ≤ a)
      ((sparse_search termScore chunksL stop query topK').map SparseResult.score) ∧
    (sparse_search termScore chunksL stop query topK').length ≤ topK' := by
  refine ⟨?_, ?_, ?_, ?_⟩
  · exact List.Pairwise.sublist (List.take_sublist _ _)
      (List.sorted_insertionSort scoreDesc _)
  · rw [hybrid_search_fuse, List.length_take]
    exact Nat.min_le_left _ _
  · have hmap : (sparse_search termScore chunksL stop query topK').map
        SparseResult.score
        = (((argsortAsc (bm25_get_scores termScore chunksL.length
            (tokenize stop query))).reverse).take topK').map
          (fun i => (bm25_get_scores termScore chunksL.length
            (tokenize stop query)).getD i 0) := by
      simp only [sparse_search, List.map_map]
      rw [show (SparseResult.score ∘ fun p : ℕ × ℕ =>
          (⟨p.1 + 1, (chunksL.getD p.2 default).chunk_id,
            (chunksL.getD p.2 default).chapter_number,
            (chunksL.getD p.2 default).chapter_title,
            (chunksL.getD p.2 default).content,
            (bm25_get_scores termScore chunksL.length
              (tokenize stop query)).getD p.2 0⟩ : SparseResult))
          = (fun i => (bm25_get_scores termScore chunksL.length
              (tokenize stop query)).getD i 0) ∘ Prod.snd from rfl]
      rw [← List.map_map, List.enum_map_snd]
    rw [hmap]
    have hs : List.Pairwise
        (idxLe (bm25_get_scores termScore chunksL.length (tokenize stop query)))
        (argsortAsc (bm25_get_scores termScore chunksL.length
          (tokenize stop query))) :=
      List.sorted_insertionSort _ _
    have hp : List.Pairwise
        (flip (idxLe (bm25_get_scores termScore chunksL.length (tokenize stop query))))
        (((argsortAsc (bm25_get_scores termScore chunksL.length
          (tokenize stop query))).reverse).take topK') :=
      List.Pairwise.sublist (List.take_sublist _ _)
        (List.pairwise_reverse.mpr hs)
    refine hp.map _ (fun a b hab => ?_)
    have hab' : idxLe (bm25_get_scores termScore chunksL.length
        (tokenize stop query)) b a := hab
    rcases hab' with h | h
    · exact le_of_lt h
    · exact le_of_eq h.1
  · rw [sparse_search]
    simp only [List.length_map, List.enum_length, List.length_take]
    exact Nat.min_le_left _ _

/-- C8 counterexample: on the ranked chapter list `[178, 178, 105]` with
expected chapter 105, the code's `mrr_score` returns 1/3 — the rank
counter advances on the duplicate 178 — while rank-after-deduplication
(what the claim asserts for "each metric") gives 1/2.  So `mrr_score`
does not deduplicate before computing the rank. -/
theorem mrr_dedup_rank_cex :
    mrr_score [178, 178, 105] 105 = 1/3 ∧
    mrr_dedup [178, 178, 105] 105 = 1/2 ∧
    mrr_score [178, 178, 105] 105 ≠ mrr_dedup [178, 178, 105] 105 := by
  refine ⟨?_, ?_, ?_⟩ <;>
    norm_num [mrr_score, mrr_dedup, mrr_aux, dedupFirst]

/-- C8 amended: the worked example holds (`Recall@10 = 1`, `MRR = 1/2`,
`NDCG@10 = 1/log2(3)`), and `ndcg_at_k` deduplicates repeated group ids
before computing its position — but `mrr_score` computes the reciprocal
of the raw list position (duplicates are skipped for matching yet still
advance the rank counter), as the last two conjuncts record. -/
theorem metrics_worked_example :
    recall_at_k [178, 105, 93] 105 10 = 1 ∧
    mrr_score [178, 105, 93] 105 = 1/2 ∧
    ndcg_at_k [178, 105, 93] 105 10 = 1 / Real.logb 2 3 ∧
    ndcg_hit [178, 178, 105] 105 10 = some 2 ∧
    mrr_score [178, 178, 105] 105 = 1/3 := by
  refine ⟨by decide, ?_, ?_, by decide, ?_⟩
  · norm_num [mrr_score, mrr_aux]
  · have h : ndcg_hit [178, 105, 93] 105 10 = some 2 := by decide
    rw [ndcg_at_k, h]
    norm_num
  · norm_num [mrr_score, mrr_aux]

lemma chunk_tokens_aux_spec (tokens : List ℕ) :
    ∀ (fuel start : ℕ), tokens.length ≤ start + 650 * fuel →
      (∀ c ∈ chunk_tokens_aux tokens 800 150 fuel start,
          50 ≤ c.length ∧ c.length ≤ 800) ∧
      (∀ i < (chunk_tokens_aux tokens 800 150 fuel start).length,
          (chunk_tokens_aux tokens 800 150 fuel start).getD i []
            = (tokens.drop (start + 650 * i)).take 800) ∧
      tokens.length < start + 650 * (chunk_tokens_aux tokens 800 150 fuel start).length + 50 := by
  intro fuel
  induction fuel with
  | zero =>
      intro start hf
      refine ⟨by simp [chunk_tokens_aux], by simp [chunk_tokens_aux], ?_⟩
      simp only [chunk_tokens_aux, List.length_nil]
      omega
  | succ fuel ih =>
      intro start hf
      by_cases hs : start < tokens.length
      · have hchunklen : ((tokens.drop start).take 800).length
            = min 800 (tokens.length - start) := by
          simp [List.length_take, List.length_drop]
        by_cases hc : ((tokens.drop start).take 800).length < 50
        · have heq : chunk_tokens_aux tokens 800 150 (fuel + 1) start = [] := by
            simp only [chunk_tokens_aux, if_pos hs, if_pos hc]
          rw [heq]
          refine ⟨by simp, by simp, ?_⟩
          simp only [List.length_nil]
          omega
        · have heq : chunk_tokens_aux tokens 800 150 (fuel + 1) start
              = (tokens.drop start).take 800
                :: chunk_tokens_aux tokens 800 150 fuel (start + 650) := by
            simp only [chunk_tokens_aux, if_pos hs, if_neg hc]
          rw [heq]
          obtain ⟨iha, ihb, ihc⟩ := ih (start + 650) (by omega)
          refine ⟨?_, ?_, ?_⟩
          · intro c hcmem
            rcases List.mem_cons.mp hcmem with rfl | hmem
            · exact ⟨Nat.le_of_not_lt hc, by simpa using Nat.min_le_left _ _⟩
            · exact iha c hmem
          · intro i h
            cases i with
            | zero => simp
            | succ i =>
                have h' : i < (chunk_tokens_aux tokens 800 150 fuel (start + 650)).length := by
                  simpa using Nat.lt_of_succ_lt_succ h
                have hrec := ihb i h'
                simp only [List.getD_cons_succ]
                rw [hrec]
                congr 2
                ring
          · simp only [List.length_cons]
            omega
      · have heq : chunk_tokens_aux tokens 800 150 (fuel + 1) start = [] := by
          simp only [chunk_tokens_aux, if_neg hs]
        rw [heq]
        refine ⟨by simp, by simp, ?_⟩
        simp only [List.length_nil]
        omega

/-- C10: for chunk size 800 and overlap 150, every chunk produced by
`chunk_tokens` has between 50 and 800 tokens; the i-th chunk starts at
token offset 650·i (consecutive chunks start `chunk_size - overlap`
apart); an input of fewer than 50 tokens yields no chunk; and whatever
remains at the next start offset after the produced chunks is shorter
than 50 tokens — the short remainder is dropped, not emitted. -/
theorem chunk_tokens_spec (tokens : List ℕ) :
    (∀ c ∈ chunk_tokens tokens 800 150, 50 ≤ c.length ∧ c.length ≤ 800) ∧
    (∀ i < (chunk_tokens tokens 800 150).length,
        (chunk_tokens tokens 800 150).getD i []
          = (tokens.drop (650 * i)).take 800) ∧
    (tokens.length < 50 → chunk_tokens tokens 800 150 = []) ∧
    tokens.length < 650 * (chunk_tokens tokens 800 150).length + 50 := by
  obtain ⟨ha, hb, hc⟩ := chunk_tokens_aux_spec tokens (tokens.length + 1) 0 (by omega)
  rw [chunk_tokens]
  refine ⟨ha, ?_, ?_, by omega⟩
  · intro i h
    have := hb i h
    rwa [Nat.zero_add] at this
  · intro hlt
    by_contra hne
    obtain ⟨c, rest, hcr⟩ := List.exists_cons_of_ne_nil hne
    have hpos : 0 < (chunk_tokens_aux tokens 800 150 (tokens.length + 1) 0).length := by
      rw [hcr]; simp
    have hget := hb 0 hpos
    rw [hcr] at hget
    simp only [List.getD_cons_zero, Nat.mul_zero, Nat.zero_add, Nat.add_zero,
      List.drop_zero] at hget
    have h50 := (ha c (by rw [hcr]; exact List.mem_cons_self c rest)).1
    rw [hget] at h50
    simp only [List.length_take] at h50
    omega

/-- Closed witness for `chunk_tokens_spec`: a 40-token input yields no
chunk at all, and a 700-token input is covered up to a sub-50-token
remainder. -/
theorem chunk_tokens_spec_witness :
    chunk_tokens (List.range 40) 800 150 = [] ∧
    (List.range 700).length < 650 * (chunk_tokens (List.range 700) 800 150).length + 50 :=
  ⟨(chunk_tokens_spec (List.range 40)).2.2.1 (by simp),
   (chunk_tokens_spec (List.range 700)).2.2.2⟩

/-- C9: on an empty vector index (no stored vectors, hence an empty
`neighbors` answer and a consistently empty `ids.json` id map) and any
`top_k ≥ 1`, `dense_search` does NOT return an empty sequence: FAISS
pads the labels with -1 and `id_map[-1]` on the empty id map raises
IndexError.  (The claim/spec requires an empty sequence instead.) -/
theorem dense_search_empty_index (chunk_lookup : String → Option Chunk)
    (topK : ℕ) (h : 1 ≤ topK) :
    dense_search [] chunk_lookup [] topK = Except.error "IndexError" := by
  obtain ⟨t, rfl⟩ : ∃ t, topK = t + 1 := ⟨topK - 1, by omega⟩
  simp only [dense_search, faiss_search, List.take_nil, List.length_nil,
    Nat.sub_zero, List.nil_append, List.replicate, dense_search_loop]
  rfl

/-- Closed witness for `dense_search_empty_index` at `top_k = 1`. -/
theorem dense_search_empty_index_witness :
    dense_search [] (fun _ => none) [] 1 = Except.error "IndexError" :=
  dense_search_empty_index (fun _ => none) 1 (by decide)

lemma addScore_not_mem (i : ℕ) (s : ℚ) :
    ∀ (m : ScoreMap), i ∉ m.map Prod.fst → addScore m i s = m ++ [(i, s)] := by
  intro m
  induction m with
  | nil => intro _; rfl
  | cons p rest ih =>
      obtain ⟨j, t⟩ := p
      intro h
      simp only [List.map_cons, List.mem_cons, not_or] at h
      have hji : ¬ j = i := fun hh => h.1 hh.symm
      simp only [addScore, if_neg hji, List.cons_append]
      rw [ih h.2]

lemma addScore_zero_mem (i : ℕ) :
    ∀ (m : ScoreMap), i ∈ m.map Prod.fst → addScore m i 0 = m := by
  intro m
  induction m with
  | nil => intro h; simp at h
  | cons p rest ih =>
      obtain ⟨j, t⟩ := p
      intro h
      by_cases hji : j = i
      · simp only [addScore, if_pos hji, add_zero]
      · simp only [List.map_cons, List.mem_cons] at h
        rcases h with h | h
        · exact absurd h.symm hji
        · simp only [addScore, if_neg hji]
          rw [ih h]

lemma addScore_mem (i : ℕ) (s : ℚ) :
    ∀ (m : ScoreMap), ∀ p ∈ addScore m i s, p ∈ m ∨ p.1 = i := by
  intro m
  induction m with
  | nil =>
      intro p hp
      simp only [addScore, List.mem_singleton] at hp
      exact Or.inr (by rw [hp])
  | cons q rest ih =>
      obtain ⟨j, t⟩ := q
      intro p hp
      by_cases hji : j = i
      · simp only [addScore, if_pos hji, List.mem_cons] at hp
        rcases hp with hp | hp
        · exact Or.inr (by rw [hp, hji])
        · exact Or.inl (List.mem_cons_of_mem _ hp)
      · simp only [addScore, if_neg hji, List.mem_cons] at hp
        rcases hp with hp | hp
        · exact Or.inl (by simp [hp])
        · rcases ih p hp with h | h
          · exact Or.inl (List.mem_cons_of_mem _ h)
          · exact Or.inr h

lemma addScore_fst_mem (i : ℕ) (s : ℚ) :
    ∀ (m : ScoreMap), i ∈ m.map Prod.fst →
      (addScore m i s).map Prod.fst = m.map Prod.fst := by
  intro m
  induction m with
  | nil => intro h; simp at h
  | cons q rest ih =>
      obtain ⟨j, t⟩ := q
      intro h
      by_cases hji : j = i
      · simp only [addScore, if_pos hji, List.map_cons]
      · simp only [List.map_cons, List.mem_cons] at h
        rcases h with h | h
        · exact absurd h.symm hji
        · simp only [addScore, if_neg hji, List.map_cons]
          rw [ih h]

lemma densePass_eq (wd : ℚ) (k : ℕ) :
    ∀ (ds : List ℕ) (m : ScoreMap) (rank : ℕ), ds.Nodup →
      (∀ d ∈ ds, d ∉ m.map Prod.fst) →
      densePass wd k m rank ds = m ++ denseEntries wd k rank ds := by
  intro ds
  induction ds with
  | nil => intro m rank _ _; simp [densePass, denseEntries]
  | cons d ds ih =>
      intro m rank hnd hdis
      have hd_not : d ∉ m.map Prod.fst := hdis d (List.mem_cons_self d ds)
      simp only [densePass, denseEntries]
      rw [addScore_not_mem d _ m hd_not,
        ih (m ++ [(d, wd * (1 / ((k : ℚ) + rank)))]) (rank + 1)
          (List.nodup_cons.mp hnd).2 ?_, List.append_assoc]
      · rfl
      · intro e he
        simp only [List.map_append, List.mem_append, List.map_cons, List.map_nil,
          List.mem_singleton, not_or]
        refine ⟨hdis e (List.mem_cons_of_mem d he), ?_⟩
        intro hed
        exact (List.nodup_cons.mp hnd).1 (hed ▸ he)

lemma denseEntries_fst (wd : ℚ) (k : ℕ) :
    ∀ (ds : List ℕ) (rank : ℕ), (denseEntries wd k rank ds).map Prod.fst = ds := by
  intro ds
  induction ds with
  | nil => intro rank; rfl
  | cons d ds ih => intro rank; simp only [denseEntries, List.map_cons, ih]

lemma denseEntries_mem_score (wd : ℚ) (k : ℕ) :
    ∀ (ds : List ℕ) (rank : ℕ), ∀ p ∈ denseEntries wd k rank ds,
      ∃ r : ℕ, rank ≤ r ∧ p.2 = wd * (1 / ((k : ℚ) + r)) := by
  intro ds
  induction ds with
  | nil => intro rank p hp; simp [denseEntries] at hp
  | cons d ds ih =>
      intro rank p hp
      simp only [denseEntries, List.mem_cons] at hp
      rcases hp with hp | hp
      · exact ⟨rank, le_refl _, by rw [hp]⟩
      · obtain ⟨r, hr, hr2⟩ := ih (rank + 1) p hp
        exact ⟨r, by omega, hr2⟩

lemma sparseEntries_fst (ws : ℚ) (k : ℕ) (resolve : ℕ → Option ℕ) :
    ∀ (ss : List ℕ) (rank : ℕ),
      (sparseEntries ws k resolve rank ss).map Prod.fst = ss.filterMap resolve := by
  intro ss
  induction ss with
  | nil => intro rank; rfl
  | cons s ss ih =>
      intro rank
      cases hr : resolve s with
      | none =>
          simp only [sparseEntries, hr, List.filterMap_cons_none hr]
          exact ih (rank + 1)
      | some fi =>
          simp only [sparseEntries, hr, List.filterMap_cons_some hr, List.map_cons]
          rw [ih (rank + 1)]

lemma sparseEntries_mem_score (ws : ℚ) (k : ℕ) (resolve : ℕ → Option ℕ) :
    ∀ (ss : List ℕ) (rank : ℕ), ∀ p ∈ sparseEntries ws k resolve rank ss,
      ∃ r : ℕ, rank ≤ r ∧ p.2 = ws * (1 / ((k : ℚ) + r)) := by
  intro ss
  induction ss with
  | nil => intro rank p hp; simp [sparseEntries] at hp
  | cons s ss ih =>
      intro rank p hp
      cases hr : resolve s with
      | none =>
          simp only [sparseEntries, hr] at hp
          obtain ⟨r, h1, h2⟩ := ih (rank + 1) p hp
          exact ⟨r, by omega, h2⟩
      | some fi =>
          simp only [sparseEntries, hr, List.mem_cons] at hp
          rcases hp with hp | hp
          · exact ⟨rank, le_refl _, by rw [hp]⟩
          · obtain ⟨r, h1, h2⟩ := ih (rank + 1) p hp
            exact ⟨r, by omega, h2⟩

/-- Reciprocal-rank scores are strictly decreasing in rank. -/
lemma rrf_score_lt (w : ℚ) (k r1 r2 : ℕ) (hw : 0 < w) (h1 : 1 ≤ r1)
    (h12 : r1 < r2) :
    w * (1 / ((k : ℚ) + r2)) < w * (1 / ((k : ℚ) + r1)) := by
  have hr1 : (1 : ℚ) ≤ (r1 : ℚ) := by exact_mod_cast h1
  have hk : (0 : ℚ) ≤ (k : ℚ) := Nat.cast_nonneg k
  have h0 : (0 : ℚ) < (k : ℚ) + r1 := by linarith
  have h2 : (k : ℚ) + r1 < (k : ℚ) + r2 := by
    have : (r1 : ℚ) < (r2 : ℚ) := by exact_mod_cast h12
    linarith
  exact mul_lt_mul_of_pos_left (one_div_lt_one_div_of_lt h0 h2) hw

/-- Reciprocal-rank scores are positive. -/
lemma rrf_score_pos (w : ℚ) (k r : ℕ) (hw : 0 < w) (h1 : 1 ≤ r) :
    0 < w * (1 / ((k : ℚ) + r)) := by
  have hr1 : (1 : ℚ) ≤ (r : ℚ) := by exact_mod_cast h1
  have hk : (0 : ℚ) ≤ (k : ℚ) := Nat.cast_nonneg k
  have h0 : (0 : ℚ) < (k : ℚ) + r := by linarith
  exact mul_pos hw (by positivity)

/-- With sparse weight 0, the sparse pass only appends zero-score
entries (or adds 0 to existing entries, leaving them unchanged). -/
lemma sparsePass_zero (k : ℕ) (resolve : ℕ → Option ℕ) :
    ∀ (ss : List ℕ) (m : ScoreMap) (rank : ℕ),
      ∃ z : ScoreMap, sparsePass 0 k resolve m rank ss = m ++ z ∧
        ∀ p ∈ z, p.2 = 0 := by
  intro ss
  induction ss with
  | nil => intro m rank; exact ⟨[], by simp [sparsePass], by simp⟩
  | cons s ss ih =>
      intro m rank
      cases hr : resolve s with
      | none =>
          simp only [sparsePass, hr]
          exact ih m (rank + 1)
      | some fi =>
          simp only [sparsePass, hr, zero_mul]
          by_cases hmem : fi ∈ m.map Prod.fst
          · rw [addScore_zero_mem fi m hmem]
            exact ih m (rank + 1)
          · rw [addScore_not_mem fi 0 m hmem]
            obtain ⟨z, hz1, hz2⟩ := ih (m ++ [(fi, 0)]) (rank + 1)
            refine ⟨(fi, 0) :: z, ?_, ?_⟩
            · rw [hz1, List.append_assoc]
              rfl
            · intro p hp
              rcases List.mem_cons.mp hp with rfl | hp
              · rfl
              · exact hz2 p hp

/-- Updating a tracked key `i` (whose stored value is 0) and then
filtering away the keys of `K` is, up to permutation, prepending
`(i, w)` to the filter that also drops `i`. -/
lemma addScore_filter_perm (i : ℕ) (w : ℚ) (K : List ℕ) (hiK : i ∉ K) :
    ∀ (m : ScoreMap), (m.map Prod.fst).Nodup → i ∈ m.map Prod.fst →
      (∀ p ∈ m, p.1 = i → p.2 = 0) →
      ((addScore m i w).filter (fun p => decide (p.1 ∉ K))).Perm
        ((i, w) :: m.filter (fun p => decide (p.1 ∉ i :: K))) := by
  intro m
  induction m with
  | nil => intro _ h; simp at h
  | cons q rest ih =>
      obtain ⟨j, t⟩ := q
      intro hnd hmem hzero
      simp only [List.map_cons, List.nodup_cons] at hnd
      by_cases hji : j = i
      · subst hji
        have ht : t = 0 := hzero (j, t) (List.mem_cons_self _ _) rfl
        subst ht
        have hrestfilter : rest.filter (fun p => decide (p.1 ∉ j :: K))
            = rest.filter (fun p => decide (p.1 ∉ K)) := by
          refine List.filter_congr ?_
          intro p hp
          have hpj : ¬ p.1 = j := fun hh => hnd.1 (hh ▸ List.mem_map_of_mem Prod.fst hp)
          simp [decide_eq_decide, List.mem_cons, hpj]
        have haddeq : addScore ((j, (0 : ℚ)) :: rest) j w = (j, 0 + w) :: rest := by
          simp [addScore]
        have hf1 : ((j, w) :: rest).filter (fun p => decide (p.1 ∉ K))
            = (j, w) :: rest.filter (fun p => decide (p.1 ∉ K)) := by
          simp [List.filter_cons, hiK]
        have hf2 : ((j, (0 : ℚ)) :: rest).filter (fun p => decide (p.1 ∉ j :: K))
            = rest.filter (fun p => decide (p.1 ∉ j :: K)) := by
          simp [List.filter_cons]
        rw [haddeq, zero_add, hf1, hf2, hrestfilter]
      · simp only [List.map_cons] at hmem
        have hmem' : i ∈ rest.map Prod.fst := by
          rcases List.mem_cons.mp hmem with h | h
          · exact absurd h.symm hji
          · exact h
        have hzero' : ∀ p ∈ rest, p.1 = i → p.2 = 0 :=
          fun p hp => hzero p (List.mem_cons_of_mem _ hp)
        have hIH := ih hnd.2 hmem' hzero'
        simp only [addScore, if_neg hji, List.filter_cons, decide_eq_true_eq]
        by_cases hjK : j ∈ K
        · rw [if_neg (show ¬ ((j, t).1 ∉ K) from by simpa using hjK),
            if_neg (show ¬ ((j, t).1 ∉ i :: K) from by simp [hjK])]
          exact hIH
        · rw [if_pos (show ((j, t).1 ∉ K) from hjK),
            if_pos (show ((j, t).1 ∉ i :: K) from by
              simp [List.mem_cons, hji, hjK])]
          exact (hIH.cons (j, t)).trans (List.Perm.swap _ _ _)

/-- Characterisation of the sparse pass: up to permutation, the result
is the sparse contribution entries followed by the untouched entries of
the accumulator, provided the accumulator's keys are distinct, the
resolved sparse ids are distinct, and any accumulator entry about to be
touched holds 0. -/
lemma sparsePass_perm (ws : ℚ) (k : ℕ) (resolve : ℕ → Option ℕ) :
    ∀ (ss : List ℕ) (m : ScoreMap) (rank : ℕ),
      (m.map Prod.fst).Nodup →
      (ss.filterMap resolve).Nodup →
      (∀ p ∈ m, p.1 ∈ ss.filterMap resolve → p.2 = 0) →
      (sparsePass ws k resolve m rank ss).Perm
        (sparseEntries ws k resolve rank ss
          ++ m.filter (fun p => decide (p.1 ∉ ss.filterMap resolve))) := by
  intro ss
  induction ss with
  | nil =>
      intro m rank _ _ _
      simp only [sparsePass, sparseEntries, List.nil_append, List.filterMap_nil]
      rw [List.filter_eq_self.mpr (by intro p _; simp)]
  | cons s ss ih =>
      intro m rank hndm hndK hzero
      cases hr : resolve s with
      | none =>
          rw [List.filterMap_cons_none hr] at hndK hzero ⊢
          simp only [sparsePass, sparseEntries, hr]
          exact ih m (rank + 1) hndm hndK hzero
      | some fi =>
          rw [List.filterMap_cons_some hr] at hndK hzero ⊢
          obtain ⟨hfiK, hndK'⟩ := List.nodup_cons.mp hndK
          simp only [sparsePass, sparseEntries, hr]
          by_cases hmem : fi ∈ m.map Prod.fst
          · have h1 : ((addScore m fi (ws * (1 / ((k : ℚ) + rank)))).map Prod.fst).Nodup := by
              rw [addScore_fst_mem fi _ m hmem]
              exact hndm
            have h2 : ∀ p ∈ addScore m fi (ws * (1 / ((k : ℚ) + rank))),
                p.1 ∈ ss.filterMap resolve → p.2 = 0 := by
              intro p hp hpK
              rcases addScore_mem fi _ m p hp with hpm | hpfi
              · exact hzero p hpm (List.mem_cons_of_mem _ hpK)
              · exact absurd (hpfi ▸ hpK) hfiK
            have hIH := ih (addScore m fi (ws * (1 / ((k : ℚ) + rank)))) (rank + 1) h1 hndK' h2
            refine hIH.trans ?_
            have hfilter := addScore_filter_perm fi (ws * (1 / ((k : ℚ) + rank)))
              (ss.filterMap resolve) hfiK m hndm hmem
              (fun p hp hpfi => hzero p hp (by rw [hpfi]; exact List.mem_cons_self _ _))
            refine (hfilter.append_left _).trans ?_
            exact List.perm_middle
          · have haddeq := addScore_not_mem fi (ws * (1 / ((k : ℚ) + rank))) m hmem
            have h1 : ((m ++ [(fi, ws * (1 / ((k : ℚ) + rank)))]).map Prod.fst).Nodup := by
              simp only [List.map_append, List.map_cons, List.map_nil]
              rw [List.nodup_append]
              refine ⟨hndm, List.nodup_singleton fi, ?_⟩
              intro x hx hx'
              simp only [List.mem_singleton] at hx'
              exact hmem (hx' ▸ hx)
            have h2 : ∀ p ∈ m ++ [(fi, ws * (1 / ((k : ℚ) + rank)))],
                p.1 ∈ ss.filterMap resolve → p.2 = 0 := by
              intro p hp hpK
              rcases List.mem_append.mp hp with hpm | hpfi
              · exact hzero p hpm (List.mem_cons_of_mem _ hpK)
              · simp only [List.mem_singleton] at hpfi
                exact absurd (by rw [hpfi] at hpK; exact hpK) hfiK
            have hIH := ih (m ++ [(fi, ws * (1 / ((k : ℚ) + rank)))]) (rank + 1) h1 hndK' h2
            rw [haddeq]
            refine hIH.trans ?_
            have hmf : ∀ p ∈ m, p.1 ≠ fi :=
              fun p hp hh => hmem (hh ▸ List.mem_map_of_mem Prod.fst hp)
            have hfe : (m ++ [(fi, ws * (1 / ((k : ℚ) + rank)))]).filter
                (fun p => decide (p.1 ∉ ss.filterMap resolve))
                = m.filter (fun p => decide (p.1 ∉ fi :: ss.filterMap resolve))
                  ++ [(fi, ws * (1 / ((k : ℚ) + rank)))] := by
              have hfc : m.filter (fun p => decide (p.1 ∉ ss.filterMap resolve))
                  = m.filter (fun p => decide (p.1 ∉ fi :: ss.filterMap resolve)) := by
                refine List.filter_congr ?_
                intro p hp
                simp [decide_eq_decide, List.mem_cons, hmf p hp]
              have hsing : ([(fi, ws * (1 / ((k : ℚ) + rank)))] : ScoreMap).filter
                  (fun p => decide (p.1 ∉ ss.filterMap resolve))
                  = [(fi, ws * (1 / ((k : ℚ) + rank)))] := by
                simp
                simpa using hfiK
              rw [List.filter_append, hfc, hsing]
            rw [hfe, ← List.append_assoc]
            exact List.perm_append_singleton _ _

lemma denseEntries_pairwise (wd : ℚ) (k : ℕ) (hw : 0 < wd) :
    ∀ (ds : List ℕ) (rank : ℕ), 1 ≤ rank →
      (denseEntries wd k rank ds).Pairwise (fun a b => b.2 < a.2) := by
  intro ds
  induction ds with
  | nil => intro rank _; simp [denseEntries]
  | cons d ds ih =>
      intro rank hrank
      simp only [denseEntries]
      refine List.pairwise_cons.mpr ⟨?_, ih (rank + 1) (by omega)⟩
      intro b hb
      obtain ⟨r, hr1, hr2⟩ := denseEntries_mem_score wd k ds (rank + 1) b hb
      rw [hr2]
      exact rrf_score_lt wd k rank r hw hrank (by omega)

lemma sparseEntries_pairwise (ws : ℚ) (k : ℕ) (resolve : ℕ → Option ℕ) (hw : 0 < ws) :
    ∀ (ss : List ℕ) (rank : ℕ), 1 ≤ rank →
      (sparseEntries ws k resolve rank ss).Pairwise (fun a b => b.2 < a.2) := by
  intro ss
  induction ss with
  | nil => intro rank _; simp [sparseEntries]
  | cons s ss ih =>
      intro rank hrank
      cases hr : resolve s with
      | none =>
          simp only [sparseEntries, hr]
          exact ih (rank + 1) (by omega)
      | some fi =>
          simp only [sparseEntries, hr]
          refine List.pairwise_cons.mpr ⟨?_, ih (rank + 1) (by omega)⟩
          intro b hb
          obtain ⟨r, hr1, hr2⟩ := sparseEntries_mem_score ws k resolve ss (rank + 1) b hb
          rw [hr2]
          exact rrf_score_lt ws k rank r hw hrank (by omega)

/-- A sorted list that is a permutation of `P ++ Z`, where `P` has
strictly decreasing scores all above every score in `Z`, starts with
exactly `P`. -/
lemma sorted_perm_eq_take :
    ∀ (P Z s : ScoreMap), List.Sorted scoreDesc s →
      s.Perm (P ++ Z) → P.Pairwise (fun a b => b.2 < a.2) →
      (∀ p ∈ P, ∀ z ∈ Z, z.2 < p.2) →
      s.take P.length = P := by
  intro P
  induction P with
  | nil => intro Z s _ _ _ _; simp
  | cons p P ih =>
      intro Z s hsort hperm hpw hbd
      cases s with
      | nil =>
          have := hperm.length_eq
          simp at this
      | cons a s' =>
          obtain ⟨hhead, htail⟩ := List.sorted_cons.mp hsort
          have hap : a = p := by
            by_contra hap
            have hps' : p ∈ s' := by
              have hmem : p ∈ a :: s' := hperm.symm.subset (by simp)
              rcases List.mem_cons.mp hmem with h | h
              · exact absurd h.symm hap
              · exact h
            have hpa : p.2 ≤ a.2 := hhead p hps'
            have haPZ : a ∈ (p :: P) ++ Z := hperm.subset (List.mem_cons_self a s')
            rcases List.mem_append.mp haPZ with h | h
            · rcases List.mem_cons.mp h with h | h
              · exact hap h
              · have hlt : a.2 < p.2 := (List.pairwise_cons.mp hpw).1 a h
                exact absurd (lt_of_le_of_lt hpa hlt) (lt_irrefl _)
            · have hlt : a.2 < p.2 := hbd p (List.mem_cons_self _ _) a h
              exact absurd (lt_of_le_of_lt hpa hlt) (lt_irrefl _)
          subst hap
          have hperm' : s'.Perm (P ++ Z) :=
            (List.perm_cons a).mp (by simpa using hperm)
          have ihres := ih Z s' htail hperm' (List.pairwise_cons.mp hpw).2
            (fun q hq z hz => hbd q (List.mem_cons_of_mem _ hq) z hz)
          simp only [List.length_cons, List.take_succ_cons, ihres]

/-- C2: with full dense weight `(wd, ws) = (1, 0)` (alpha = 1.0) the
fused order is exactly the dense ranking truncated to `top_k`, and with
full sparse weight `(wd, ws) = (0, 1)` (alpha = 0.0) it is exactly the
resolved sparse ranking truncated to `top_k` — for every duplicate-free
pair of candidate rankings whose length covers `top_k` (each retriever
returns `RETRIEVAL_K = 20 ≥ TOP_K = 5` distinct candidates). -/
theorem fuse_alpha_extremes (k topK : ℕ) (dense sparse : List ℕ)
    (resolve : ℕ → Option ℕ) (hd : dense.Nodup)
    (hsn : (sparse.filterMap resolve).Nodup)
    (h1 : topK ≤ dense.length)
    (h2 : topK ≤ (sparse.filterMap resolve).length) :
    (hybrid_search_fuse 1 0 k topK dense sparse resolve).map Prod.fst
        = dense.take topK ∧
    (hybrid_search_fuse 0 1 k topK dense sparse resolve).map Prod.fst
        = (sparse.filterMap resolve).take topK := by
  constructor
  · rw [hybrid_search_fuse,
      densePass_eq 1 k dense [] 1 hd (by simp), List.nil_append]
    obtain ⟨z, hz1, hz2⟩ :=
      sparsePass_zero k resolve sparse (denseEntries 1 k 1 dense) 1
    rw [hz1]
    have hPlen : (denseEntries 1 k 1 dense).length = dense.length := by
      conv_rhs => rw [← denseEntries_fst 1 k dense 1]
      rw [List.length_map]
    have hbd : ∀ p ∈ denseEntries 1 k 1 dense, ∀ zz ∈ z, zz.2 < p.2 := by
      intro p hp zz hzz
      rw [hz2 zz hzz]
      obtain ⟨r, hr1, hr2⟩ := denseEntries_mem_score 1 k dense 1 p hp
      rw [hr2]
      exact rrf_score_pos 1 k r one_pos hr1
    have htake := sorted_perm_eq_take (denseEntries 1 k 1 dense) z
      (pySorted (denseEntries 1 k 1 dense ++ z))
      (List.sorted_insertionSort _ _) (List.perm_insertionSort _ _)
      (denseEntries_pairwise 1 k one_pos dense 1 (le_refl 1)) hbd
    have hres : (pySorted (denseEntries 1 k 1 dense ++ z)).take topK
        = (denseEntries 1 k 1 dense).take topK := by
      conv_rhs => rw [← htake]
      rw [List.take_take, min_eq_left (by rw [hPlen]; exact h1)]
    rw [hres, List.map_take, denseEntries_fst 1 k dense 1]
  · rw [hybrid_search_fuse,
      densePass_eq 0 k dense [] 1 hd (by simp), List.nil_append]
    have hDzero : ∀ p ∈ denseEntries 0 k 1 dense, p.2 = 0 := by
      intro p hp
      obtain ⟨r, _, hr2⟩ := denseEntries_mem_score 0 k dense 1 p hp
      rw [hr2, zero_mul]
    have hperm0 := sparsePass_perm 1 k resolve sparse (denseEntries 0 k 1 dense) 1
      (by rw [denseEntries_fst 0 k dense 1]; exact hd) hsn
      (fun p hp _ => hDzero p hp)
    have hElen : (sparseEntries 1 k resolve 1 sparse).length
        = (sparse.filterMap resolve).length := by
      conv_rhs => rw [← sparseEntries_fst 1 k resolve sparse 1]
      rw [List.length_map]
    have hbd : ∀ p ∈ sparseEntries 1 k resolve 1 sparse,
        ∀ zz ∈ (denseEntries 0 k 1 dense).filter
          (fun p => decide (p.1 ∉ sparse.filterMap resolve)), zz.2 < p.2 := by
      intro p hp zz hzz
      rw [hDzero zz (List.mem_of_mem_filter hzz)]
      obtain ⟨r, hr1, hr2⟩ := sparseEntries_mem_score 1 k resolve sparse 1 p hp
      rw [hr2]
      exact rrf_score_pos 1 k r one_pos hr1
    have htake := sorted_perm_eq_take (sparseEntries 1 k resolve 1 sparse)
      ((denseEntries 0 k 1 dense).filter
        (fun p => decide (p.1 ∉ sparse.filterMap resolve)))
      (pySorted (sparsePass 1 k resolve (denseEntries 0 k 1 dense) 1 sparse))
      (List.sorted_insertionSort _ _)
      ((List.perm_insertionSort _ _).trans hperm0)
      (sparseEntries_pairwise 1 k resolve one_pos sparse 1 (le_refl 1)) hbd
    have hres : (pySorted (sparsePass 1 k resolve (denseEntries 0 k 1 dense) 1 sparse)).take topK
        = (sparseEntries 1 k resolve 1 sparse).take topK := by
      conv_rhs => rw [← htake]
      rw [List.take_take, min_eq_left (by rw [hElen]; exact h2)]
    rw [hres, List.map_take, sparseEntries_fst 1 k resolve sparse 1]

/-- Closed witness for `fuse_alpha_extremes`: dense `[3,1,2]`, sparse
`[9,1]`, `top_k = 2`. -/
theorem fuse_alpha_extremes_witness :
    (hybrid_search_fuse 1 0 60 2 [3, 1, 2] [9, 1] some).map Prod.fst = [3, 1] ∧
    (hybrid_search_fuse 0 1 60 2 [3, 1, 2] [9, 1] some).map Prod.fst = [9, 1] :=
  fuse_alpha_extremes 60 2 [3, 1, 2] [9, 1] some (by decide) (by decide)
    (by decide) (by decide)

end MediRAG
